import Mathlib

/-!
Verification development for the agent-loops repository (src/lib.rs).
Shallow embedding: bytes are `Nat` (values < 256 in practice), Rust strings
are `List Char` with UTF-8 byte lengths computed via `Char.utf8Size`, and
fallible operations (Rust panics) return `Option`.
-/

namespace AgentLoops

/-! ## truncate_display (src/lib.rs lines 19-25)

Rust:
  pub fn truncate_display(s: &str, max_len: usize) -> String \x7b
      if s.len() <= max_len \x7b s.to_string() \x7d
      else \x7b format!("\x7b\x7d...", &s[..max_len.saturating_sub(3)]) \x7d
  \x7d
`s.len()` is the UTF-8 byte length; the slice `&s[..k]` panics when `k` is
not a character boundary of `s` (or exceeds its length). We model a string
as its list of characters and the slice as an `Option`-valued byte-prefix
that is `none` exactly when Rust would panic.
-/

/-- UTF-8 byte length of a string given as a list of characters. -/
def utf8Len (s : List Char) : Nat := (s.map Char.utf8Size).sum

/-- Rust byte slice `&s[..n]`: take the characters occupying exactly the
first `n` bytes; `none` when `n` is not a character boundary (mid-character
or past the end), which is a Rust panic. -/
def utf8ByteTake : List Char → Nat → Option (List Char)
  | _, 0 => some []
  | [], _ + 1 => none
  | c :: cs, n + 1 =>
    if c.utf8Size ≤ n + 1 then
      (utf8ByteTake cs (n + 1 - c.utf8Size)).map (fun p => c :: p)
    else
      none

/-- The 3-character ellipsis marker `...` appended by truncation. -/
def ellipsisMarker : List Char := ['.', '.', '.']

/-- Function `truncate_display` from src/lib.rs; `none` models the Rust panic on a
non-boundary byte slice. `max_len.saturating_sub(3)` is Nat subtraction. -/
def truncate_display (s : List Char) (max_len : Nat) : Option (List Char) :=
  if utf8Len s ≤ max_len then
    some s
  else
    (utf8ByteTake s (max_len - 3)).map (fun p => p ++ ellipsisMarker)

/-! ## AnsiSanitizer (src/lib.rs lines 293-300 and 358-390) -/

/-- The sanitizer's parse state, from `enum AnsiParseState` in src/lib.rs. -/
inductive AnsiParseState
  | Normal
  | Esc
  | Csi
  | Osc
  | OscEsc
  deriving DecidableEq

/-- Method `PinnedOutputRenderer::consume_byte`: one byte through the ANSI state
machine; returns the new state and the bytes pushed to the sanitized
output (0 or 1 bytes). Byte values are `Nat`; the Rust `u8` range match
arms `0x20..=0x7e | 0x80..=0xff` become explicit bound checks. -/
def consume_byte (st : AnsiParseState) (b : Nat) : AnsiParseState × List Nat :=
  match st with
  | .Normal =>
    if b = 0x1b then (.Esc, [])
    else if b = 0x0d then (.Normal, [0x0a])
    else if b = 0x0a ∨ b = 0x09 then (.Normal, [b])
    else if (0x20 ≤ b ∧ b ≤ 0x7e) ∨ (0x80 ≤ b ∧ b ≤ 0xff) then (.Normal, [b])
    else (.Normal, [])
  | .Esc =>
    if b = 0x5b then (.Csi, [])
    else if b = 0x5d then (.Osc, [])
    else (.Normal, [])
  | .Csi =>
    if 0x40 ≤ b ∧ b ≤ 0x7e then (.Normal, []) else (.Csi, [])
  | .Osc =>
    if b = 0x07 then (.Normal, [])
    else if b = 0x1b then (.OscEsc, [])
    else (.Osc, [])
  | .OscEsc =>
    if b = 0x5c then (.Normal, []) else (.Osc, [])

/-- Run the sanitizer over a byte list from a given state, as the loop in
`push_chunk` does, returning the final state and the sanitized bytes. -/
def sanitizeFrom (st : AnsiParseState) : List Nat → AnsiParseState × List Nat
  | [] => (st, [])
  | b :: rest =>
    ((sanitizeFrom (consume_byte st b).1 rest).1,
     (consume_byte st b).2 ++ (sanitizeFrom (consume_byte st b).1 rest).2)

/-- Sanitize a whole byte stream starting in `Normal`, the state a fresh
`PinnedOutputRenderer` starts in. -/
def sanitize (bs : List Nat) : List Nat := (sanitizeFrom .Normal bs).2

/-- The bytes the sanitizer is allowed to emit: tab, newline, printable
ASCII 0x20-0x7e and high bytes 0x80-0xff. -/
def isSafeByte (b : Nat) : Bool :=
  b = 0x09 || b = 0x0a || (0x20 ≤ b && b ≤ 0x7e) || (0x80 ≤ b && b ≤ 0xff)

/-- Successive `push_chunk` calls on one renderer instance: the ANSI state
persists across chunks (`self.ansi_state`), and each chunk's sanitized
bytes are emitted in order. -/
def pushChunks (st : AnsiParseState) : List (List Nat) → AnsiParseState × List Nat
  | [] => (st, [])
  | chunk :: rest =>
    ((pushChunks (sanitizeFrom st chunk).1 rest).1,
     (sanitizeFrom st chunk).2 ++ (pushChunks (sanitizeFrom st chunk).1 rest).2)

/-! ## fit_terminal_line (src/lib.rs lines 436-456)

Rust works on `line.chars()`, so a `List Char` line with `List.length` is
the faithful model. -/

/-- Function `fit_terminal_line`: width-clamp one line to `max_cols` columns. -/
def fit_terminal_line (line : List Char) (max_cols : Nat) : List Char :=
  if max_cols = 0 then []
  else if line.length ≤ max_cols then line
  else if max_cols ≤ 3 then List.replicate max_cols '.'
  else line.take (max_cols - 3) ++ ellipsisMarker

/-! ## ScrollBuffer (src/lib.rs lines 302-307, 327-345, 392-398)

`PinnedOutputRenderer` keeps `output_lines: VecDeque<String>` and
`current_line: String`. `push_chunk` feeds the sanitized text character by
character: `\n` closes the current line via `push_current_line`, any other
character is appended to `current_line`. -/

/-- Constant `MAX_RENDERED_OUTPUT_LINES` from src/lib.rs line 16. -/
def MAX_RENDERED_OUTPUT_LINES : Nat := 4000

/-- The while-loop in `push_current_line`: pop the front while the deque
holds more than `MAX_RENDERED_OUTPUT_LINES` entries. -/
def trimOld : List (List Char) → List (List Char)
  | [] => []
  | l :: rest =>
    if MAX_RENDERED_OUTPUT_LINES < (l :: rest).length then trimOld rest
    else l :: rest

/-- The line-buffer part of `PinnedOutputRenderer`: the completed lines
deque and the in-progress current line. -/
structure ScrollState where
  output_lines : List (List Char)
  current_line : List Char
  deriving DecidableEq

/-- The buffer of a freshly constructed renderer: no lines, empty current
line. -/
def initScroll : ScrollState := ⟨[], []⟩

/-- Method `PinnedOutputRenderer::push_current_line`: move `current_line` onto the
back of `output_lines`, then evict from the front while over the cap. -/
def push_current_line (st : ScrollState) : ScrollState :=
  { output_lines := trimOld (st.output_lines ++ [st.current_line]),
    current_line := [] }

/-- One character of the `for ch in text.chars()` loop in `push_chunk`. -/
def pushScrollChar (st : ScrollState) (c : Char) : ScrollState :=
  if c = '\n' then push_current_line st
  else { st with current_line := st.current_line ++ [c] }

/-- Feed a sanitized character stream through the line buffer. -/
def feedText (st : ScrollState) (cs : List Char) : ScrollState :=
  cs.foldl pushScrollChar st

/-- Reference (unbounded) line splitter: the same character loop with no
cap, tracking all completed lines ever pushed plus the partial line. -/
def splitStep (acc : List (List Char) × List Char) (c : Char) :
    List (List Char) × List Char :=
  if c = '\n' then (acc.1 ++ [acc.2], []) else (acc.1, acc.2 ++ [c])

/-- All completed lines of a character stream, in completion order, with
the trailing partial line. -/
def splitLines (cs : List Char) : List (List Char) × List Char :=
  cs.foldl splitStep ([], [])

/-! ## Render body window (src/lib.rs lines 400-425) -/

/-- Spec-modelled tail window: the last `k` entries of a sequence. -/
def lastWindow (k : Nat) (l : List α) : List α :=
  (l.reverse.take k).reverse

/-- The visible line sequence built in `render`: completed lines, then the
in-progress partial line when non-empty. -/
def visibleLines (st : ScrollState) : List (List Char) :=
  st.output_lines ++ (if st.current_line = [] then [] else [st.current_line])

/-- The body slice printed by `render`: with
`body_rows = rows.saturating_sub(header_line_count)` and
`start = visible_lines.len().saturating_sub(body_rows)`, the code prints
`visible_lines[start..]`. Nat subtraction is saturating subtraction. -/
def visibleBody (st : ScrollState) (rows headerLen : Nat) : List (List Char) :=
  let bodyRows := rows - headerLen
  let vis := visibleLines st
  vis.drop (vis.length - bodyRows)

/-! ## orchestrate (src/lib.rs lines 476-522)

The runner is the `runner: F` closure, which may carry state (the tests log
the prompts it receives); we model it as a state-passing function returning
`Except ε Bool` for Rust's `io::Result<bool>`. `orchestrate` maps
`Err(_)` to `success = false` and keeps looping. -/

/-- The `match runner(prompt).await` in `orchestrate`: `Ok(s) => s`,
`Err(e) => false`. -/
def runSuccess (r : Except ε Bool) : Bool :=
  match r with
  | .ok b => b
  | .error _ => false

/-- The inner `for (task_idx, prompt) in prompts.iter().enumerate()` loop,
started at task index `t0`, threading the runner state. -/
def orchestrateTasks (runner : σ → α → σ × Except ε Bool) (loopIdx : Nat) :
    List α → Nat → σ → σ × List (Nat × Nat × Bool)
  | [], _, s => (s, [])
  | p :: rest, t0, s =>
    ((orchestrateTasks runner loopIdx rest (t0 + 1) (runner s p).1).1,
     (loopIdx, t0, runSuccess (runner s p).2) ::
       (orchestrateTasks runner loopIdx rest (t0 + 1) (runner s p).1).2)

/-- The outer `for loop_idx in 0..loops` loop, with `remaining` passes left
and the next pass numbered `loopIdx`. -/
def orchestrateFrom (runner : σ → α → σ × Except ε Bool) (prompts : List α) :
    Nat → Nat → σ → σ × List (Nat × Nat × Bool)
  | _, 0, s => (s, [])
  | loopIdx, k + 1, s =>
    ((orchestrateFrom runner prompts (loopIdx + 1) k
        (orchestrateTasks runner loopIdx prompts 0 s).1).1,
     (orchestrateTasks runner loopIdx prompts 0 s).2 ++
       (orchestrateFrom runner prompts (loopIdx + 1) k
         (orchestrateTasks runner loopIdx prompts 0 s).1).2)

/-- Function `orchestrate`: run all prompts in order, repeating `loops` times,
returning the final runner state and the `(loop_index, task_index,
success)` results in push order. -/
def orchestrate (prompts : List α) (loops : Nat)
    (runner : σ → α → σ × Except ε Bool) (s0 : σ) :
    σ × List (Nat × Nat × Bool) :=
  orchestrateFrom runner prompts 0 loops s0

/-- A runner that records every prompt it is invoked with, in order, and
answers with the pure function `f` — the instrument used to observe the
invocation sequence (as the repository's tests do with a logging vector). -/
def logRunner (f : α → Except ε Bool) :
    List α → α → List α × Except ε Bool :=
  fun tr p => (tr ++ [p], f p)

/-! ## Helper lemmas about UTF-8 byte slicing -/

theorem utf8Len_nil : utf8Len [] = 0 := rfl

theorem utf8Len_cons (c : Char) (cs : List Char) :
    utf8Len (c :: cs) = c.utf8Size + utf8Len cs := by
  simp [utf8Len]

theorem utf8Len_append (s t : List Char) :
    utf8Len (s ++ t) = utf8Len s + utf8Len t := by
  simp [utf8Len]

theorem utf8Len_ellipsisMarker : utf8Len ellipsisMarker = 3 := rfl

/-- A successful byte slice consumes exactly `n` bytes. -/
theorem utf8ByteTake_len :
    ∀ (s : List Char) (n : Nat) (p : List Char),
      utf8ByteTake s n = some p → utf8Len p = n := by
  intro s
  induction s with
  | nil =>
    intro n p h
    cases n with
    | zero => simp [utf8ByteTake] at h; subst h; rfl
    | succ k => simp [utf8ByteTake] at h
  | cons c cs ih =>
    intro n p h
    cases n with
    | zero => simp [utf8ByteTake] at h; subst h; rfl
    | succ k =>
      simp only [utf8ByteTake] at h
      by_cases hsz : c.utf8Size ≤ k + 1
      · rw [if_pos hsz] at h
        rcases Option.map_eq_some'.mp h with ⟨q, hq, rfl⟩
        have := ih _ _ hq
        rw [utf8Len_cons, this, Nat.add_sub_cancel' hsz]
      · rw [if_neg hsz] at h
        exact absurd h (by simp)

/-- On a string of single-byte characters, any in-range byte slice
succeeds and is the character prefix. -/
theorem utf8ByteTake_ascii :
    ∀ (s : List Char) (n : Nat), (∀ c ∈ s, c.utf8Size = 1) →
      n ≤ s.length → utf8ByteTake s n = some (s.take n) := by
  intro s
  induction s with
  | nil =>
    intro n _ hn
    have : n = 0 := Nat.le_zero.mp hn
    subst this
    rfl
  | cons c cs ih =>
    intro n hall hn
    cases n with
    | zero => rfl
    | succ k =>
      have hc : c.utf8Size = 1 := hall c (by simp)
      have hk : k ≤ cs.length := Nat.succ_le_succ_iff.mp (by simpa using hn)
      simp only [utf8ByteTake, hc, if_pos (by omega : (1:Nat) ≤ k + 1)]
      have : k + 1 - 1 = k := rfl
      rw [this, ih k (fun d hd => hall d (by simp [hd])) hk]
      rfl

/-- On single-byte characters the Rust byte length is the character count. -/
theorem utf8Len_ascii (s : List Char) (h : ∀ c ∈ s, c.utf8Size = 1) :
    utf8Len s = s.length := by
  induction s with
  | nil => rfl
  | cons c cs ih =>
    rw [utf8Len_cons, h c (by simp), ih (fun d hd => h d (by simp [hd]))]
    simp [Nat.add_comm]

/-! ## Claims C4, C5, C9 about truncate_display -/

/-- Claim C4, counterexample: the claim quantifies over every string, but
`truncate_display` panics (modelled as `none`) when the byte index
`max_len - 3` falls inside a multi-byte character: here byte 2 is inside
the 2-byte character é of `héllo` (byte length 6 > 5). -/
theorem truncate_display_C4_counterexample :
    truncate_display ['h', 'é', 'l', 'l', 'o'] 5 = none := by decide

/-- Claim C4 (amended): for every limit `m ≥ 3`, if `len(s) ≤ m` the string
is returned unchanged; otherwise, whenever the byte index `m - 3` falls on
a character boundary of `s` (so that the slice does not panic — true in
particular for every ASCII string), the result has byte length exactly `m`
and ends in the 3-character ellipsis marker. -/
theorem truncate_display_C4 (s : List Char) (m : Nat) (hm : 3 ≤ m) :
    (utf8Len s ≤ m → truncate_display s m = some s) ∧
    (m < utf8Len s → ∀ p, utf8ByteTake s (m - 3) = some p →
      truncate_display s m = some (p ++ ellipsisMarker) ∧
      utf8Len (p ++ ellipsisMarker) = m ∧
      ellipsisMarker <:+ p ++ ellipsisMarker) := by
  constructor
  · intro h
    simp [truncate_display, h]
  · intro h p hp
    refine ⟨?_, ?_, List.suffix_append _ _⟩
    · simp [truncate_display, Nat.not_le.mpr h, hp]
    · rw [utf8Len_append, utf8ByteTake_len s (m - 3) p hp, utf8Len_ellipsisMarker]
      omega

/-- Witness for C4 at `s = "abcdef"`, `m = 5`. -/
theorem truncate_display_C4_witness :
    truncate_display ['a', 'b', 'c', 'd', 'e', 'f'] 5 =
      some (['a', 'b'] ++ ellipsisMarker) ∧
    utf8Len (['a', 'b'] ++ ellipsisMarker) = 5 ∧
    ellipsisMarker <:+ ['a', 'b'] ++ ellipsisMarker :=
  (truncate_display_C4 ['a', 'b', 'c', 'd', 'e', 'f'] 5 (by decide)).2
    (by decide) ['a', 'b'] (by decide)

/-- Claim C5, counterexample: for `m = 0 < 3` and the empty string the code
takes the `s.len() <= max_len` branch and returns the string unchanged, not
the ellipsis marker. -/
theorem truncate_display_C5_counterexample :
    truncate_display [] 0 ≠ some ellipsisMarker := by decide

/-- Claim C5 (amended): for `m < 3`, truncation returns exactly the
ellipsis marker whenever the string's byte length exceeds `m`; a string
with `len(s) ≤ m` is returned unchanged instead. -/
theorem truncate_display_C5 (s : List Char) (m : Nat) (hm : m < 3)
    (hs : m < utf8Len s) : truncate_display s m = some ellipsisMarker := by
  have h3 : m - 3 = 0 := Nat.sub_eq_zero_of_le (Nat.le_of_lt hm)
  have htake : utf8ByteTake s (m - 3) = some [] := by
    rw [h3]
    cases s <;> rfl
  simp [truncate_display, Nat.not_le.mpr hs, htake]

/-- Witness for C5 at `s = "x"`, `m = 0`. -/
theorem truncate_display_C5_witness :
    truncate_display ['x'] 0 = some ellipsisMarker :=
  truncate_display_C5 ['x'] 0 (by decide) (by decide)

/-- Claim C9, counterexample: `truncate_display` panics (modelled `none`)
on the multi-byte string ééé with limit 4: the slice index 1 is inside the
first 2-byte character. -/
theorem truncate_display_C9_counterexample :
    truncate_display ['é', 'é', 'é'] 4 = none := by decide

/-- Every character occupies at least one UTF-8 byte. -/
theorem one_le_utf8Size (c : Char) : 1 ≤ c.utf8Size := by
  simp only [Char.utf8Size]
  split_ifs <;> omega

/-- Slicing at a character boundary — a byte index that splits the string
into a character prefix and suffix — always succeeds and yields that
prefix. -/
theorem utf8ByteTake_boundary :
    ∀ (p q : List Char), utf8ByteTake (p ++ q) (utf8Len p) = some p := by
  intro p
  induction p with
  | nil =>
    intro q
    rw [utf8Len_nil]
    cases q <;> rfl
  | cons c p' ih =>
    intro q
    have hsz := one_le_utf8Size c
    have hlen : utf8Len (c :: p') = (c.utf8Size - 1 + utf8Len p') + 1 := by
      rw [utf8Len_cons]; omega
    rw [List.cons_append, hlen]
    simp only [utf8ByteTake]
    have hle : c.utf8Size ≤ (c.utf8Size - 1 + utf8Len p') + 1 := by omega
    rw [if_pos hle]
    have harg : (c.utf8Size - 1 + utf8Len p') + 1 - c.utf8Size = utf8Len p' := by
      omega
    rw [harg, ih q]
    rfl

/-- Claim C9 (amended): `truncate_display` returns a string without
panicking whenever `len(s) ≤ m` or the byte index `m - 3` falls on a
character boundary of `s` (a split of `s` into a prefix of byte length
`m - 3` and a suffix) — in particular for every ASCII string and every
limit `m`. -/
theorem truncate_display_C9 (s : List Char) (m : Nat)
    (h : utf8Len s ≤ m ∨ ∃ p q, s = p ++ q ∧ utf8Len p = m - 3) :
    ∃ t, truncate_display s m = some t := by
  by_cases hlen : utf8Len s ≤ m
  · exact ⟨s, by simp [truncate_display, hlen]⟩
  · rcases h with h | ⟨p, q, hs, hp⟩
    · exact absurd h hlen
    · subst hs
      refine ⟨p ++ ellipsisMarker, ?_⟩
      have hslice := utf8ByteTake_boundary p q
      rw [hp] at hslice
      simp [truncate_display, hlen, hslice]

/-- Witness for C9 at the non-ASCII string `"aéxyz"` with `m = 4`: byte
index 1 is a character boundary, so truncation returns without panic. -/
theorem truncate_display_C9_witness :
    ∃ t, truncate_display ['a', 'é', 'x', 'y', 'z'] 4 = some t :=
  truncate_display_C9 ['a', 'é', 'x', 'y', 'z'] 4
    (Or.inr ⟨['a'], ['é', 'x', 'y', 'z'], rfl, by decide⟩)

/-! ## Claim C7 about fit_terminal_line -/

/-- Claim C7: a line whose character count fits within `cols` is returned
unchanged; a longer line with `cols > 3` becomes its first `cols - 3`
characters plus the 3-character ellipsis marker, total length `cols`; a
longer line with `cols ≤ 3` becomes a run of filler dots of length exactly
`cols`. -/
theorem fit_terminal_line_C7 (line : List Char) (cols : Nat) :
    (line.length ≤ cols → fit_terminal_line line cols = line) ∧
    (cols < line.length → 3 < cols →
      fit_terminal_line line cols = line.take (cols - 3) ++ ellipsisMarker ∧
      (fit_terminal_line line cols).length = cols) ∧
    (cols < line.length → cols ≤ 3 →
      fit_terminal_line line cols = List.replicate cols '.' ∧
      (fit_terminal_line line cols).length = cols) := by
  refine ⟨?_, ?_, ?_⟩
  · intro h
    by_cases h0 : cols = 0
    · subst h0
      have : line = [] := List.length_eq_zero.mp (Nat.le_zero.mp h)
      simp [fit_terminal_line, this]
    · simp [fit_terminal_line, h0, h]
  · intro hlong hcols
    have h0 : cols ≠ 0 := by omega
    have h3 : ¬ cols ≤ 3 := Nat.not_le.mpr hcols
    have heq : fit_terminal_line line cols =
        line.take (cols - 3) ++ ellipsisMarker := by
      simp [fit_terminal_line, h0, Nat.not_le.mpr hlong, h3]
    refine ⟨heq, ?_⟩
    rw [heq, List.length_append, List.length_take]
    have : cols - 3 ≤ line.length := by omega
    simp [Nat.min_eq_left this, ellipsisMarker]
    omega
  · intro hlong hcols
    by_cases h0 : cols = 0
    · subst h0
      simp [fit_terminal_line]
    · have heq : fit_terminal_line line cols = List.replicate cols '.' := by
        simp [fit_terminal_line, h0, Nat.not_le.mpr hlong, hcols]
      exact ⟨heq, by rw [heq, List.length_replicate]⟩

/-- Witness for C7 at a fitting line, a long line with `cols = 7`, and a
long line with `cols = 2`. -/
theorem fit_terminal_line_C7_witness :
    fit_terminal_line ['a', 'b'] 5 = ['a', 'b'] ∧
    (fit_terminal_line ['a', 'b', 'c', 'd', 'e', 'f', 'g', 'h'] 7 =
        ['a', 'b', 'c', 'd', 'e', 'f', 'g', 'h'].take 4 ++ ellipsisMarker ∧
      (fit_terminal_line ['a', 'b', 'c', 'd', 'e', 'f', 'g', 'h'] 7).length = 7) ∧
    (fit_terminal_line ['a', 'b', 'c', 'd', 'e', 'f'] 2 =
        List.replicate 2 '.' ∧
      (fit_terminal_line ['a', 'b', 'c', 'd', 'e', 'f'] 2).length = 2) :=
  ⟨(fit_terminal_line_C7 ['a', 'b'] 5).1 (by decide),
   (fit_terminal_line_C7 ['a', 'b', 'c', 'd', 'e', 'f', 'g', 'h'] 7).2.1
     (by decide) (by decide),
   (fit_terminal_line_C7 ['a', 'b', 'c', 'd', 'e', 'f'] 2).2.2
     (by decide) (by decide)⟩

/-! ## Helper lemmas about the sanitizer state machine -/

/-- Sanitizing a concatenation threads the state through the first part
and concatenates the outputs. -/
theorem sanitizeFrom_append (xs : List Nat) :
    ∀ (st : AnsiParseState) (ys : List Nat),
      sanitizeFrom st (xs ++ ys) =
        ((sanitizeFrom (sanitizeFrom st xs).1 ys).1,
         (sanitizeFrom st xs).2 ++ (sanitizeFrom (sanitizeFrom st xs).1 ys).2) := by
  induction xs with
  | nil => intro st ys; simp [sanitizeFrom]
  | cons b rest ih =>
    intro st ys
    simp only [List.cons_append, sanitizeFrom, List.append_eq]
    rw [ih ((consume_byte st b).1) ys]
    simp

/-- Every byte `consume_byte` emits is in the safe set. -/
theorem consume_byte_safe (st : AnsiParseState) (b : Nat) :
    ((consume_byte st b).2).all isSafeByte = true := by
  cases st <;> simp only [consume_byte] <;> split_ifs <;>
    simp_all [isSafeByte] <;> omega

/-- Every byte the sanitizer emits, from any state, is in the safe set. -/
theorem sanitizeFrom_safe (bs : List Nat) :
    ∀ st : AnsiParseState, ((sanitizeFrom st bs).2).all isSafeByte = true := by
  induction bs with
  | nil => intro st; rfl
  | cons b rest ih =>
    intro st
    simp only [sanitizeFrom, List.all_append]
    rw [consume_byte_safe, ih]
    rfl

/-- In the `Csi` state, parameter/intermediate bytes (outside
`0x40..=0x7e`) are consumed with no output and the state stays `Csi`. -/
theorem sanitizeFrom_csi_params (params : List Nat)
    (h : ∀ b ∈ params, ¬(0x40 ≤ b ∧ b ≤ 0x7e)) :
    sanitizeFrom .Csi params = (.Csi, []) := by
  induction params with
  | nil => rfl
  | cons b rest ih =>
    have hb : ¬(0x40 ≤ b ∧ b ≤ 0x7e) := h b (by simp)
    have hcb : consume_byte .Csi b = (.Csi, []) := by
      simp [consume_byte, hb]
    simp [sanitizeFrom, hcb, ih (fun d hd => h d (by simp [hd]))]

/-- In the `Osc` state, payload bytes other than BEL and ESC are consumed
with no output and the state stays `Osc`. -/
theorem sanitizeFrom_osc_payload (payload : List Nat)
    (h : ∀ b ∈ payload, b ≠ 0x07 ∧ b ≠ 0x1b) :
    sanitizeFrom .Osc payload = (.Osc, []) := by
  induction payload with
  | nil => rfl
  | cons b rest ih =>
    have hb := h b (by simp)
    have hcb : consume_byte .Osc b = (.Osc, []) := by
      simp [consume_byte, hb.1, hb.2]
    simp [sanitizeFrom, hcb, ih (fun d hd => h d (by simp [hd]))]

/-! ## Claim C1: the sanitizer emits only safe bytes and strips sequences -/

/-- Claim C1: starting in `Normal`, (i) every emitted byte is printable
(0x20-0x7e, 0x80-0xff), newline, or tab; (ii) a carriage return in normal
text is rewritten to a newline; (iii) a full CSI sequence
`ESC [ params final` with `final ∈ 0x40..=0x7e` is consumed entirely with
no output, as is an OSC sequence `ESC ] payload` ended by BEL or by
`ESC \`; and (iv) the bytes `A ESC [ 3 1 m B ESC [ 0 m C` sanitize to
exactly `ABC`. -/
theorem sanitizer_C1 (bs params payload : List Nat) :
    (sanitize bs).all isSafeByte = true ∧
    consume_byte .Normal 0x0d = (.Normal, [0x0a]) ∧
    ((∀ b ∈ params, ¬(0x40 ≤ b ∧ b ≤ 0x7e)) → ∀ f, 0x40 ≤ f → f ≤ 0x7e →
      sanitizeFrom .Normal (0x1b :: 0x5b :: (params ++ [f])) = (.Normal, [])) ∧
    ((∀ b ∈ payload, b ≠ 0x07 ∧ b ≠ 0x1b) →
      sanitizeFrom .Normal (0x1b :: 0x5d :: (payload ++ [0x07])) = (.Normal, []) ∧
      sanitizeFrom .Normal (0x1b :: 0x5d :: (payload ++ [0x1b, 0x5c])) = (.Normal, [])) ∧
    sanitize [0x41, 0x1b, 0x5b, 0x33, 0x31, 0x6d, 0x42, 0x1b, 0x5b, 0x30, 0x6d, 0x43] =
      [0x41, 0x42, 0x43] := by
  refine ⟨sanitizeFrom_safe bs .Normal, rfl, ?_, ?_, by decide⟩
  · intro hp f hf1 hf2
    have hfin : consume_byte .Csi f = (.Normal, []) := by
      simp [consume_byte, hf1, hf2]
    have : sanitizeFrom .Csi (params ++ [f]) = (.Normal, []) := by
      rw [sanitizeFrom_append params .Csi [f], sanitizeFrom_csi_params params hp]
      simp [sanitizeFrom, hfin]
    simp [sanitizeFrom, consume_byte, this]
  · intro hp
    constructor
    · have : sanitizeFrom .Osc (payload ++ [0x07]) = (.Normal, []) := by
        rw [sanitizeFrom_append payload .Osc [0x07],
          sanitizeFrom_osc_payload payload hp]
        simp [sanitizeFrom, consume_byte]
      simp [sanitizeFrom, consume_byte, this]
    · have : sanitizeFrom .Osc (payload ++ [0x1b, 0x5c]) = (.Normal, []) := by
        rw [sanitizeFrom_append payload .Osc [0x1b, 0x5c],
          sanitizeFrom_osc_payload payload hp]
        simp [sanitizeFrom, consume_byte]
      simp [sanitizeFrom, consume_byte, this]

/-- Witness for C1: a CSI sequence with parameters `31` and final `m`, and
an OSC title sequence ended by BEL, are both consumed with no output. -/
theorem sanitizer_C1_witness :
    sanitizeFrom .Normal (0x1b :: 0x5b :: ([0x33, 0x31] ++ [0x6d])) = (.Normal, []) ∧
    sanitizeFrom .Normal (0x1b :: 0x5d :: ([0x30, 0x3b] ++ [0x07])) = (.Normal, []) :=
  ⟨(sanitizer_C1 [0x0d] [0x33, 0x31] [0x30, 0x3b]).2.2.1 (by decide) 0x6d
      (by decide) (by decide),
   ((sanitizer_C1 [0x0d] [0x33, 0x31] [0x30, 0x3b]).2.2.2.1 (by decide)).1⟩

/-! ## Claim C10: the ANSI state persists across push_chunk calls -/

/-- Feeding chunks one `push_chunk` at a time equals feeding the
concatenated stream in one call. -/
theorem pushChunks_eq_join (chunks : List (List Nat)) :
    ∀ st : AnsiParseState, pushChunks st chunks = sanitizeFrom st chunks.flatten := by
  induction chunks with
  | nil => intro st; rfl
  | cons chunk rest ih =>
    intro st
    simp only [pushChunks, List.flatten_cons,
      sanitizeFrom_append chunk st rest.flatten, ih]

/-- Claim C10: for every way of splitting a byte stream into successive
`push_chunk` calls on one renderer, the sanitized output and the final
parse state equal those of a single call on the whole stream; in
particular the CSI sequence of `A ESC [ 3` / `1 m B` split across two
chunks is still fully removed. -/
theorem push_chunk_split_C10 (chunks : List (List Nat)) :
    (pushChunks .Normal chunks).2 = sanitize chunks.flatten ∧
    (pushChunks .Normal chunks).1 = (sanitizeFrom .Normal chunks.flatten).1 ∧
    (pushChunks .Normal [[0x41, 0x1b, 0x5b, 0x33], [0x31, 0x6d, 0x42]]).2 =
      [0x41, 0x42] := by
  refine ⟨?_, ?_, by decide⟩
  · rw [pushChunks_eq_join chunks .Normal]; rfl
  · rw [pushChunks_eq_join chunks .Normal]

/-! ## Helper lemmas about the scroll buffer and the render window -/

/-- The last-`k` window is a saturating drop from the front. -/
theorem lastWindow_eq_drop (k : Nat) (l : List α) :
    lastWindow k l = l.drop (l.length - k) := by
  rw [lastWindow, ← List.rtake_eq_reverse_take_reverse]
  rfl

/-- The eviction while-loop keeps exactly the last
`MAX_RENDERED_OUTPUT_LINES` entries. -/
theorem trimOld_eq_drop (l : List (List Char)) :
    trimOld l = l.drop (l.length - MAX_RENDERED_OUTPUT_LINES) := by
  induction l with
  | nil => rfl
  | cons a t ih =>
    by_cases h : MAX_RENDERED_OUTPUT_LINES < (a :: t).length
    · rw [trimOld, if_pos h, ih]
      have hc : (a :: t).length - MAX_RENDERED_OUTPUT_LINES =
          (t.length - MAX_RENDERED_OUTPUT_LINES) + 1 := by
        simp only [List.length_cons] at h ⊢
        omega
      rw [hc, List.drop_succ_cons]
    · rw [trimOld, if_neg h]
      have hc : (a :: t).length - MAX_RENDERED_OUTPUT_LINES = 0 := by omega
      rw [hc, List.drop_zero]

/-- Pushing one more line onto a buffer that holds the last
`MAX_RENDERED_OUTPUT_LINES` completed lines keeps exactly the last
`MAX_RENDERED_OUTPUT_LINES` of the extended history. -/
theorem trimOld_step (U : List (List Char)) (x : List Char) :
    trimOld (U.drop (U.length - MAX_RENDERED_OUTPUT_LINES) ++ [x]) =
      (U ++ [x]).drop ((U ++ [x]).length - MAX_RENDERED_OUTPUT_LINES) := by
  rw [trimOld_eq_drop]
  by_cases h : U.length ≤ MAX_RENDERED_OUTPUT_LINES
  · have h0 : U.length - MAX_RENDERED_OUTPUT_LINES = 0 := by omega
    rw [h0, List.drop_zero]
  · have hM : 0 < MAX_RENDERED_OUTPUT_LINES := by
      rw [MAX_RENDERED_OUTPUT_LINES]; omega
    have hlen : (U.drop (U.length - MAX_RENDERED_OUTPUT_LINES)).length =
        MAX_RENDERED_OUTPUT_LINES := by
      rw [List.length_drop]; omega
    have hidx : (U.drop (U.length - MAX_RENDERED_OUTPUT_LINES) ++ [x]).length -
        MAX_RENDERED_OUTPUT_LINES = 1 := by
      rw [List.length_append, hlen]; simp
    rw [hidx, List.drop_append_eq_append_drop, List.drop_drop,
      List.drop_append_eq_append_drop]
    have h1 : 1 - (U.drop (U.length - MAX_RENDERED_OUTPUT_LINES)).length = 0 := by
      omega
    have h2 : (U ++ [x]).length - MAX_RENDERED_OUTPUT_LINES - U.length = 0 := by
      rw [List.length_append]; simp; omega
    have h3 : U.length - MAX_RENDERED_OUTPUT_LINES + 1 =
        (U ++ [x]).length - MAX_RENDERED_OUTPUT_LINES := by
      rw [List.length_append]; simp; omega
    rw [h1, h2, h3]

/-- Feeding text into a buffer that holds the tail of history `U` yields
the buffer holding the tail of the extended history; the partial line
tracks the unbounded splitter exactly. -/
theorem feedText_drop (cs : List Char) :
    ∀ (U : List (List Char)) (cur : List Char),
      feedText ⟨U.drop (U.length - MAX_RENDERED_OUTPUT_LINES), cur⟩ cs =
        ⟨(cs.foldl splitStep (U, cur)).1.drop
            ((cs.foldl splitStep (U, cur)).1.length - MAX_RENDERED_OUTPUT_LINES),
          (cs.foldl splitStep (U, cur)).2⟩ := by
  induction cs with
  | nil => intro U cur; rfl
  | cons c rest ih =>
    intro U cur
    by_cases hc : c = '\n'
    · subst hc
      have h1 : feedText ⟨U.drop (U.length - MAX_RENDERED_OUTPUT_LINES), cur⟩
          ('\n' :: rest) =
          feedText (push_current_line
            ⟨U.drop (U.length - MAX_RENDERED_OUTPUT_LINES), cur⟩) rest := by
        simp [feedText, pushScrollChar]
      have h2 : push_current_line
          ⟨U.drop (U.length - MAX_RENDERED_OUTPUT_LINES), cur⟩ =
          ⟨(U ++ [cur]).drop ((U ++ [cur]).length - MAX_RENDERED_OUTPUT_LINES),
            []⟩ := by
        simp [push_current_line, trimOld_step]
      have h3 : (('\n' :: rest).foldl splitStep (U, cur)) =
          rest.foldl splitStep (U ++ [cur], []) := by
        simp [splitStep]
      rw [h1, h2, ih (U ++ [cur]) [], h3]
    · have h1 : feedText ⟨U.drop (U.length - MAX_RENDERED_OUTPUT_LINES), cur⟩
          (c :: rest) =
          feedText ⟨U.drop (U.length - MAX_RENDERED_OUTPUT_LINES),
            cur ++ [c]⟩ rest := by
        simp [feedText, pushScrollChar, hc]
      have h3 : ((c :: rest).foldl splitStep (U, cur)) =
          rest.foldl splitStep (U, cur ++ [c]) := by
        simp [splitStep, hc]
      rw [h1, ih U (cur ++ [c]), h3]

/-! ## Claim C3: the completed-lines buffer is a 4000-line FIFO -/

/-- Claim C3: after any character stream has been pushed into a fresh
renderer, the completed-lines buffer holds at most 4000 lines
(`MAX_RENDERED_OUTPUT_LINES = 4000`), and it equals the last-4000 window
of the full completion history — so eviction is oldest-first and retention
order is insertion order; the in-progress partial line is the unbounded
splitter's partial line. Every intermediate moment of a push sequence is
the final moment of the corresponding character prefix, so the bound holds
at every point. -/
theorem scroll_buffer_C3 (cs : List Char) :
    (feedText initScroll cs).output_lines.length ≤ MAX_RENDERED_OUTPUT_LINES ∧
    MAX_RENDERED_OUTPUT_LINES = 4000 ∧
    (feedText initScroll cs).output_lines =
      lastWindow MAX_RENDERED_OUTPUT_LINES (splitLines cs).1 ∧
    (feedText initScroll cs).current_line = (splitLines cs).2 := by
  have hinit : initScroll =
      ⟨([] : List (List Char)).drop
        (([] : List (List Char)).length - MAX_RENDERED_OUTPUT_LINES), []⟩ := rfl
  have h := feedText_drop cs [] []
  rw [← hinit] at h
  have hsplit : splitLines cs = cs.foldl splitStep ([], []) := rfl
  refine ⟨?_, rfl, ?_, ?_⟩
  · rw [h]
    simp only [List.length_drop]
    omega
  · rw [h, lastWindow_eq_drop, hsplit]
  · rw [h, hsplit]

/-! ## Claim C6: the visible body is a tail window -/

/-- Claim C6: on every redraw, with `body_rows = rows - header_line_count`
(saturating at zero), the printed body is exactly the last-`body_rows`
window of the completed lines followed by the non-empty partial line — a
suffix of that sequence of length `min body_rows total`, never the head. -/
theorem render_tail_C6 (st : ScrollState) (rows headerLen : Nat) :
    visibleBody st rows headerLen =
      lastWindow (rows - headerLen) (visibleLines st) ∧
    visibleBody st rows headerLen <:+ visibleLines st ∧
    (visibleBody st rows headerLen).length =
      min (rows - headerLen) (visibleLines st).length := by
  refine ⟨?_, ?_, ?_⟩
  · rw [lastWindow_eq_drop]
    rfl
  · simp only [visibleBody]
    exact List.drop_suffix _ _
  · simp only [visibleBody, List.length_drop]
    omega

/-! ## Helper characterization of orchestrate with a logging runner -/

/-- The results one task pass produces under a pure answering function. -/
def taskResults (f : α → Except ε Bool) (loopIdx : Nat) :
    List α → Nat → List (Nat × Nat × Bool)
  | [], _ => []
  | p :: rest, t0 =>
    (loopIdx, t0, runSuccess (f p)) :: taskResults f loopIdx rest (t0 + 1)

/-- The results of the remaining loop passes under a pure answering
function. -/
def loopResults (f : α → Except ε Bool) (prompts : List α) :
    Nat → Nat → List (Nat × Nat × Bool)
  | _, 0 => []
  | loopIdx, k + 1 =>
    taskResults f loopIdx prompts 0 ++ loopResults f prompts (loopIdx + 1) k

theorem orchestrateTasks_logRunner (f : α → Except ε Bool) (li : Nat) :
    ∀ (ps : List α) (t0 : Nat) (tr : List α),
      orchestrateTasks (logRunner f) li ps t0 tr =
        (tr ++ ps, taskResults f li ps t0) := by
  intro ps
  induction ps with
  | nil => intro t0 tr; simp [orchestrateTasks, taskResults]
  | cons p rest ih =>
    intro t0 tr
    simp only [orchestrateTasks, taskResults, logRunner, ih]
    simp

theorem orchestrateFrom_logRunner (f : α → Except ε Bool) (ps : List α) :
    ∀ (rem li : Nat) (tr : List α),
      orchestrateFrom (logRunner f) ps li rem tr =
        (tr ++ (List.replicate rem ps).flatten, loopResults f ps li rem) := by
  intro rem
  induction rem with
  | zero => intro li tr; simp [orchestrateFrom, loopResults]
  | succ k ih =>
    intro li tr
    simp only [orchestrateFrom, loopResults, orchestrateTasks_logRunner, ih]
    simp [List.replicate_succ]

theorem taskResults_length (f : α → Except ε Bool) (li : Nat) :
    ∀ (ps : List α) (t0 : Nat), (taskResults f li ps t0).length = ps.length := by
  intro ps
  induction ps with
  | nil => intro t0; rfl
  | cons p rest ih => intro t0; simp [taskResults, ih]

theorem loopResults_length (f : α → Except ε Bool) (ps : List α) :
    ∀ (rem li : Nat), (loopResults f ps li rem).length = rem * ps.length := by
  intro rem
  induction rem with
  | zero => intro li; simp [loopResults]
  | succ k ih =>
    intro li
    simp [loopResults, taskResults_length, ih, Nat.succ_mul, Nat.add_comm]

theorem taskResults_getElem (f : α → Except ε Bool) (li : Nat) :
    ∀ (ps : List α) (t0 j : Nat) (hj : j < ps.length)
      (h : j < (taskResults f li ps t0).length),
      (taskResults f li ps t0)[j] =
        (li, t0 + j, runSuccess (f ps[j])) := by
  intro ps
  induction ps with
  | nil => intro t0 j hj h; exact absurd hj (by simp)
  | cons p rest ih =>
    intro t0 j hj h
    cases j with
    | zero => simp [taskResults]
    | succ j' =>
      have hj' : j' < rest.length := by simpa using hj
      have h' : j' < (taskResults f li rest (t0 + 1)).length := by
        rw [taskResults_length]; exact hj'
      have harith : t0 + (j' + 1) = t0 + 1 + j' := by omega
      simp only [taskResults, List.getElem_cons_succ, harith]
      exact ih (t0 + 1) j' hj' h'

theorem loopResults_getElem (f : α → Except ε Bool) (ps : List α) :
    ∀ (rem li i : Nat) (h : i < (loopResults f ps li rem).length)
      (hmod : i % ps.length < ps.length),
      (loopResults f ps li rem)[i] =
        (li + i / ps.length, i % ps.length,
          runSuccess (f ps[i % ps.length])) := by
  intro rem
  induction rem with
  | zero => intro li i h hmod; rw [loopResults_length] at h; omega
  | succ k ih =>
    intro li i h hmod
    have hn : 0 < ps.length := by
      rcases Nat.eq_zero_or_pos ps.length with h0 | h0
      · rw [h0, Nat.mod_zero] at hmod; omega
      · exact h0
    rw [loopResults_length] at h
    by_cases hi : i < ps.length
    · have hleft : i < (taskResults f li ps 0).length := by
        rw [taskResults_length]; exact hi
      simp only [loopResults]
      rw [List.getElem_append_left hleft,
        taskResults_getElem f li ps 0 i hi hleft]
      have hd : i / ps.length = 0 := Nat.div_eq_of_lt hi
      have hm : i % ps.length = i := Nat.mod_eq_of_lt hi
      simp [hd, hm]
    · have hge : ps.length ≤ i := Nat.not_lt.mp hi
      have hlen : (taskResults f li ps 0).length = ps.length :=
        taskResults_length f li ps 0
      have hge' : (taskResults f li ps 0).length ≤ i := by rw [hlen]; exact hge
      have hrest : i - ps.length < (loopResults f ps (li + 1) k).length := by
        rw [loopResults_length]
        have : i < ps.length + k * ps.length := by
          rw [Nat.succ_mul] at h; omega
        omega
      have hmod' : (i - ps.length) % ps.length < ps.length :=
        Nat.mod_lt _ hn
      simp only [loopResults]
      rw [List.getElem_append_right hge']
      simp only [hlen]
      rw [ih (li + 1) (i - ps.length)
        (by rw [loopResults_length]; rw [loopResults_length] at hrest; exact hrest)
        hmod']
      have hdiv : i / ps.length = (i - ps.length) / ps.length + 1 :=
        Nat.div_eq_sub_div hn hge
      have hmm : i % ps.length = (i - ps.length) % ps.length :=
        Nat.mod_eq_sub_mod hge
      have h1 : li + 1 + (i - ps.length) / ps.length = li + i / ps.length := by
        rw [hdiv]; omega
      simp only [h1, ← hmm]

/-! ## Claim C2: orchestrate sequencing -/

/-- Claim C2: with a runner that logs its invocations, `orchestrate`
invokes the runner on exactly the prompt list repeated `loops` times (loop
index outermost, task index innermost, in strict sequence), returns
`loops × n` results whose `i`-th entry carries loop index `i / n` and task
index `i % n`, and performs zero runs with zero results when `loops = 0`
or the prompt list is empty. -/
theorem orchestrate_C2 (ps : List α) (L : Nat) (f : α → Except ε Bool) :
    (orchestrate ps L (logRunner f) []).1 = (List.replicate L ps).flatten ∧
    (orchestrate ps L (logRunner f) []).2.length = L * ps.length ∧
    (∀ i (h : i < (orchestrate ps L (logRunner f) []).2.length),
      ((orchestrate ps L (logRunner f) []).2.get ⟨i, h⟩).1 = i / ps.length ∧
      ((orchestrate ps L (logRunner f) []).2.get ⟨i, h⟩).2.1 = i % ps.length) ∧
    (L = 0 →
      (orchestrate ps L (logRunner f) []).1 = [] ∧
      (orchestrate ps L (logRunner f) []).2 = []) ∧
    (ps = [] →
      (orchestrate ps L (logRunner f) []).1 = [] ∧
      (orchestrate ps L (logRunner f) []).2 = []) := by
  have horch : orchestrate ps L (logRunner f) [] =
      ((List.replicate L ps).flatten, loopResults f ps 0 L) := by
    rw [orchestrate, orchestrateFrom_logRunner]
    simp
  refine ⟨by rw [horch], ?_, ?_, ?_, ?_⟩
  · rw [horch]
    exact loopResults_length f ps L 0
  · intro i h
    have hres : (orchestrate ps L (logRunner f) []).2 = loopResults f ps 0 L := by
      rw [horch]
    revert h
    rw [hres]
    intro h
    have hlen : i < L * ps.length := by
      rw [loopResults_length] at h; exact h
    have hn : 0 < ps.length := by
      by_contra h0
      have hz : ps.length = 0 := by omega
      rw [hz, Nat.mul_zero] at hlen
      omega
    have hmod : i % ps.length < ps.length := Nat.mod_lt _ hn
    simp only [List.get_eq_getElem]
    rw [loopResults_getElem f ps L 0 i h hmod]
    exact ⟨by simp, rfl⟩
  · intro hL
    subst hL
    rw [horch]
    exact ⟨rfl, rfl⟩
  · intro hps
    subst hps
    rw [horch]
    constructor
    · simp
    · show loopResults f ([] : List α) 0 L = []
      apply List.eq_nil_of_length_eq_zero
      rw [loopResults_length]
      simp

/-- Witness for C2 at `prompts = [1, 2, 3]`, `loops = 2`, result index 4:
the entry carries loop index `4 / 3 = 1` and task index `4 % 3 = 1`. -/
theorem orchestrate_C2_witness :
    ((orchestrate [1, 2, 3] 2
        (logRunner (fun _ => (Except.ok true : Except Unit Bool))) []).2.get
      ⟨4, by decide⟩).1 = 4 / 3 ∧
    ((orchestrate [1, 2, 3] 2
        (logRunner (fun _ => (Except.ok true : Except Unit Bool))) []).2.get
      ⟨4, by decide⟩).2.1 = 4 % 3 :=
  (orchestrate_C2 [1, 2, 3] 2
    (fun _ => (Except.ok true : Except Unit Bool))).2.2.1 4 (by decide)

/-! ## Claim C8: a runner error is a failed run, not an abort -/

/-- Claim C8: when the runner returns an error for the run at loop `i`,
task `j`, `orchestrate` still invokes the runner on the full repeated
prompt sequence (no run is skipped), still returns one result per
scheduled run, and records that run's result as `(i, j, false)`. -/
theorem orchestrate_C8 (ps : List α) (L : Nat) (f : α → Except ε Bool)
    (i j : Nat) (hi : i < L) (hj : j < ps.length) (e : ε)
    (he : f (ps.get ⟨j, hj⟩) = Except.error e) :
    (orchestrate ps L (logRunner f) []).1 = (List.replicate L ps).flatten ∧
    (orchestrate ps L (logRunner f) []).2.length = L * ps.length ∧
    ∃ h : i * ps.length + j < (orchestrate ps L (logRunner f) []).2.length,
      (orchestrate ps L (logRunner f) []).2.get ⟨i * ps.length + j, h⟩ =
        (i, j, false) := by
  have horch : orchestrate ps L (logRunner f) [] =
      ((List.replicate L ps).flatten, loopResults f ps 0 L) := by
    rw [orchestrate, orchestrateFrom_logRunner]
    simp
  have hn : 0 < ps.length := by omega
  have hidx : i * ps.length + j < L * ps.length := by
    have h1 : i * ps.length + j < (i + 1) * ps.length := by
      rw [Nat.succ_mul]
      omega
    have h2 : (i + 1) * ps.length ≤ L * ps.length :=
      Nat.mul_le_mul_right _ hi
    omega
  refine ⟨by rw [horch], by rw [horch]; exact loopResults_length f ps L 0, ?_⟩
  have hres : (orchestrate ps L (logRunner f) []).2 = loopResults f ps 0 L := by
    rw [horch]
  have hlen : i * ps.length + j < (orchestrate ps L (logRunner f) []).2.length := by
    rw [hres, loopResults_length]
    exact hidx
  refine ⟨hlen, ?_⟩
  have hdiv : (i * ps.length + j) / ps.length = i := by
    rw [Nat.mul_comm i ps.length, Nat.mul_add_div hn, Nat.div_eq_of_lt hj,
      Nat.add_zero]
  have hmod : (i * ps.length + j) % ps.length = j := by
    rw [Nat.mul_comm i ps.length, Nat.mul_add_mod, Nat.mod_eq_of_lt hj]
  have hmod' : (i * ps.length + j) % ps.length < ps.length := by
    rw [hmod]; exact hj
  revert hlen
  rw [hres]
  intro hlen
  simp only [List.get_eq_getElem]
  rw [loopResults_getElem f ps L 0 (i * ps.length + j) hlen hmod']
  simp only [Prod.mk.injEq]
  refine ⟨by rw [hdiv, Nat.zero_add], hmod, ?_⟩
  have hget2 : ps.get ⟨(i * ps.length + j) % ps.length, hmod'⟩ =
      ps.get ⟨j, hj⟩ := by
    congr 1
    exact Fin.ext hmod
  simp only [List.get_eq_getElem] at hget2
  rw [hget2]
  have he' : f (ps.get ⟨j, hj⟩) = Except.error e := he
  simp only [List.get_eq_getElem] at he'
  rw [he']
  rfl

/-- Witness for C8: two prompts, two loops, the runner errors on prompt
`1`; the run at loop 1, task 0 is recorded as failed while the full
invocation sequence and result count are intact. -/
theorem orchestrate_C8_witness :
    (orchestrate [1, 2] 2
        (logRunner (fun n =>
          if n = 1 then (Except.error () : Except Unit Bool)
          else Except.ok true)) []).1 =
      (List.replicate 2 [1, 2]).flatten ∧
    ∃ h : 1 * 2 + 0 < (orchestrate [1, 2] 2
        (logRunner (fun n =>
          if n = 1 then (Except.error () : Except Unit Bool)
          else Except.ok true)) []).2.length,
      (orchestrate [1, 2] 2
          (logRunner (fun n =>
            if n = 1 then (Except.error () : Except Unit Bool)
            else Except.ok true)) []).2.get ⟨1 * 2 + 0, h⟩ =
        (1, 0, false) := by
  have hj : 0 < ([1, 2] : List Nat).length := by decide
  have hi : 1 < 2 := by decide
  have he : (fun n => if n = 1 then (Except.error () : Except Unit Bool)
      else Except.ok true) (([1, 2] : List Nat).get ⟨0, hj⟩) =
      Except.error () := rfl
  have h := orchestrate_C8 [1, 2] 2
    (fun n => if n = 1 then (Except.error () : Except Unit Bool)
      else Except.ok true) 1 0 hi hj () he
  exact ⟨h.1, h.2.2⟩

end AgentLoops
